import Mathlib

/-!
# Volume allocation controller: K-hop frontier and greedy capacity fill

A shallow embedding of `internal/controller/volumeallocation_controller.go`:
`KHopNeighbors`, `GetAvailableDisk`, `UpdateDiskAvailability`, `min` and the
allocation part of `DistributedVolumeAllocation`, followed by the properties
proved about them.

Conventions of the embedding.

* Go `int` values are mathematical integers (`Int`).  Every quantity the
  allocation loop computes lies between `0` and the requested number of
  blocks (or equals the reported capacity), so no arithmetic of the loop can
  leave the 64-bit range.
* The hop counter `k` of the outer loop is the one `int` that can overflow.
  `hopLoop` counts the `kMax + 1` iterations down and never wraps;
  `hopLoopFuel` is the same loop with Go's wrapping `k++`, run on fuel because
  at `kMax = 2^63 - 1` the condition `k <= kMax` cannot fail.  For
  `kMax < 2^63 - 1` the wrapping loop returns the state `allocationLoop`
  computes (`allocationLoop_returns`).  At `kMax = 2^63 - 1` it may never
  return (`hopLoopFuel_never_returns`) or offer the anchor again after the
  wrap (`hopLoopFuel_regrants`), so the theorems about the value a call
  returns assume `kMax < 2^63 - 1`; the specification takes `kMax` to be a
  small positive integer and the one caller passes `3`.  The two relational
  properties, radius monotonicity and declaration-order independence, hold of
  the wrapping loop at `kMax = 2^63 - 1` as well (`radius_monotone_at_wrap`,
  `hopLoopFuel_congr`).
* A Go `map[string]int` is an association list with pairwise distinct keys,
  kept in insertion order; `nil` (the value returned on a failed fetch or
  parse) is `none`.
* The `visited` set of the traversal is the list of keys that were set to
  `true`.
* The two calls that leave the process (`r.Get` of the topology and
  `resource.ParseQuantity`) are represented by their outcome, an `Option`.
-/

namespace VolumeAllocation

/-! ## Data model -/

/-- Modelled from the spec: the `Link` type of package `api/v1` is not part of
the sources at hand; the controller reads only its `EdgeNodeRef` field, the
identity of the neighbouring node. -/
structure Link where
  EdgeNodeRef : String
  deriving DecidableEq

/-- Modelled from the spec: the `EdgeNode` type of package `api/v1` is not part
of the sources at hand; the controller reads its `Name` (the node identity) and
its `Links` (the declared outgoing links, in declaration order). -/
structure EdgeNode where
  Name : String
  Links : List Link
  deriving DecidableEq

/-- The Go value `map[string]int`, as an association list. -/
abbrev AllocMap := List (String × Int)

/-! ## `KHopNeighbors` -/

/-- State of the traversal inside one depth iteration: the `visited` set and
the slice `next` under construction. -/
structure Scan where
  visited : List String
  next : List String
  deriving DecidableEq

/-- Body of `for _, link := range e.Links`:
`if !visited[ref] { visited[ref] = true; next = append(next, ref) }`. -/
def visitLink (st : Scan) (link : Link) : Scan :=
  if link.EdgeNodeRef ∈ st.visited then st
  else { visited := link.EdgeNodeRef :: st.visited, next := st.next ++ [link.EdgeNodeRef] }

/-- Body of `for _, e := range edges`: `if e.Name == node { for ... }`. -/
def scanEdge (node : String) (st : Scan) (e : EdgeNode) : Scan :=
  if e.Name = node then e.Links.foldl visitLink st else st

/-- Body of `for _, node := range current`. -/
def expandNode (edges : List EdgeNode) (st : Scan) (node : String) : Scan :=
  edges.foldl (scanEdge node) st

/-- One iteration of `for depth := 0; depth < k; depth++`: starting from
`next := []`, scan every node of `current`; the pair returned is the updated
`visited` and the new `current`. -/
def bfsStep (edges : List EdgeNode) (visited current : List String) : Scan :=
  current.foldl (expandNode edges) { visited := visited, next := [] }

/-- The depth loop, run `depth` times from `(visited, current)`; the result
holds the final `visited` and, in its field `next`, the final `current`. -/
def bfsLoop (edges : List EdgeNode) : Nat → List String → List String → Scan
  | 0, visited, current => { visited := visited, next := current }
  | depth + 1, visited, current =>
    let st := bfsStep edges visited current
    bfsLoop edges depth st.visited st.next

/-- `KHopNeighbors(edges, start, k)`.  The loop `depth < k` runs `k` times for
`k ≥ 0` and not at all for negative `k`, that is `k.toNat` times. -/
def KHopNeighbors (edges : List EdgeNode) (start : String) (k : Int) : List String :=
  (bfsLoop edges k.toNat [start] [start]).next

/-! ## Capacity source -/

/-- `GetAvailableDisk`: the placeholder returns `10240` for every node. -/
def GetAvailableDisk (_node : String) : Int := 10240

/-- `UpdateDiskAvailability`: the placeholder does nothing.  The allocation
loop below records the arguments of each call in `AllocState.updates`. -/
def UpdateDiskAvailability (_node : String) (_newAvailable : Int) : Unit := ()

/-- The helper `min` of the controller. -/
def goMin (a b : Int) : Int := if a < b then a else b

/-! ## `DistributedVolumeAllocation` -/

/-- `sort.Strings`: ascending order of the strings.  Equal strings are
indistinguishable, so every sorting algorithm returns the same slice. -/
def sortStrings (l : List String) : List String :=
  l.insertionSort (fun a b => a ≤ b)

/-- `result[key] += delta` on a Go map (a missing key reads as `0`). -/
def mapAdd : AllocMap → String → Int → AllocMap
  | [], key, delta => [(key, 0 + delta)]
  | (k, v) :: rest, key, delta =>
    if k = key then (k, v + delta) :: rest else (k, v) :: mapAdd rest key delta

/-- Sum of the values of a map. -/
def sumValues (m : AllocMap) : Int := (m.map Prod.snd).sum

/-- Variables of the allocation loop: the `result` map, `remaining`, and the
sequence of calls `UpdateDiskAvailability(node, newAvailable)` made so far. -/
structure AllocState where
  result : AllocMap
  remaining : Int
  updates : List (String × Int)
  deriving DecidableEq

/-- Body of `for _, e := range neighbors`, with the capacity query
`available` as a parameter (the controller passes `GetAvailableDisk`). -/
def allocNode (available : String → Int) (st : AllocState) (e : String) : AllocState :=
  let avail := available e
  if st.remaining > 0 ∧ avail > 0 then
    let alloc := goMin st.remaining avail
    { result := mapAdd st.result e alloc
      remaining := st.remaining - alloc
      updates := st.updates ++ [(e, avail - alloc)] }
  else st

/-- The loop `for k := ...; k <= kMax; k++` with `iters` iterations left to
run and the counter at `k`: frontier, sort, inner loop, then
`if remaining == 0 { break }`.  The counter is not wrapped here: this is the
loop of the code as long as `k` stays below `2^63 - 1`, see `hopLoopFuel`. -/
def hopLoop (available : String → Int) (edges : List EdgeNode) (eStar : String) :
    Nat → Int → AllocState → AllocState
  | 0, _, st => st
  | iters + 1, k, st =>
    let neighbors := sortStrings (KHopNeighbors edges eStar k)
    let st1 := neighbors.foldl (allocNode available) st
    if st1.remaining = 0 then st1 else hopLoop available edges eStar iters (k + 1) st1

/-- Lines 137-167 of `DistributedVolumeAllocation`: the state after the loop
`for k := 0; k <= kMax; k++`, which for `kMax < 2^63 - 1` runs at most
`kMax + 1` times (`allocationLoop_returns`). -/
def allocationLoop (available : String → Int) (edges : List EdgeNode) (eStar : String)
    (blocks kMax : Int) : AllocState :=
  hopLoop available edges eStar (kMax + 1).toNat 0
    { result := [], remaining := blocks, updates := [] }

/-- Go's `k++` on the 64-bit `int`: the successor, wrapping from `2^63 - 1` to
`-2^63`. -/
def incInt64 (k : Int) : Int := if k = 2 ^ 63 - 1 then -(2 ^ 63) else k + 1

/-- The loop `for k := ...; k <= kMax; k++` with the wrapping counter: test
`k <= kMax`, frontier, sort, inner loop, `if remaining == 0 { break }`, `k++`.
The loop has no bound of its own when `kMax = 2^63 - 1`, so it runs on `fuel`
(one unit per evaluation of the loop condition); the value is `none` when the
fuel runs out before the loop is left. -/
def hopLoopFuel (available : String → Int) (edges : List EdgeNode) (eStar : String)
    (kMax : Int) : Nat → Int → AllocState → Option AllocState
  | 0, _, _ => none
  | fuel + 1, k, st =>
    if k ≤ kMax then
      let neighbors := sortStrings (KHopNeighbors edges eStar k)
      let st1 := neighbors.foldl (allocNode available) st
      if st1.remaining = 0 then some st1
      else hopLoopFuel available edges eStar kMax fuel (incInt64 k) st1
    else some st

/-- `blocks := int(volumeQuantity.Value() / (1024 * 1024))`: Go integer
division truncates toward zero. -/
def bytesToBlocks (bytes : Int) : Int := bytes.tdiv (1024 * 1024)

/-- `DistributedVolumeAllocation`.  `topology` is the outcome of fetching the
`EdgeNetworkTopology` (its `Spec.Edges`, or `none` on error), `volumeSize` the
outcome of `resource.ParseQuantity(...).Value()` (the byte count, or `none` on
error), `eStar` is `Spec.MicroservicePlacement`.  The value is `none` where the
code returns `nil`, otherwise the returned map (for `kMax < 2^63 - 1`, the
range in which the loop counter does not wrap). -/
def DistributedVolumeAllocation (topology : Option (List EdgeNode)) (volumeSize : Option Int)
    (eStar : String) (kMax : Int) : Option AllocMap :=
  match topology with
  | none => none
  | some edges =>
    match volumeSize with
    | none => none
    | some bytes =>
      some (allocationLoop GetAvailableDisk edges eStar (bytesToBlocks bytes) kMax).result

/-! ## Vocabulary of the properties -/

/-- The directed graph declared by a topology: `u` has an outgoing link to `v`. -/
def Linked (edges : List EdgeNode) (u v : String) : Prop :=
  ∃ e ∈ edges, e.Name = u ∧ ∃ l ∈ e.Links, l.EdgeNodeRef = v

/-- There is a walk of `n` links from `start` to the node. -/
inductive Walk (edges : List EdgeNode) (start : String) : Nat → String → Prop
  | zero : Walk edges start 0 start
  | step {n : Nat} {u v : String} : Walk edges start n u → Linked edges u v →
      Walk edges start (n + 1) v

/-- The shortest path from `start` to `n` has exactly `k` links. -/
def HopDistance (edges : List EdgeNode) (start n : String) (k : Nat) : Prop :=
  Walk edges start k n ∧ ∀ j, j < k → ¬ Walk edges start j n

/-- The sorted frontiers of the `n` hops `k, k + 1, ..., k + n - 1`, one after
the other. -/
def candidatesFrom (edges : List EdgeNode) (eStar : String) : Nat → Int → List String
  | 0, _ => []
  | n + 1, k => sortStrings (KHopNeighbors edges eStar k) ++ candidatesFrom edges eStar n (k + 1)

/-- The nodes offered capacity by a call with radius `kMax`, in the order the
loop reaches them: the sorted frontiers of the hops `0, 1, ..., kMax`. -/
def candidates (edges : List EdgeNode) (eStar : String) (kMax : Int) : List String :=
  candidatesFrom edges eStar (kMax + 1).toNat 0

/-- Capacity reported by `available` on the nodes within `kMax` hops: the sum
over `candidates`, in which every node at hop distance at most `kMax` occurs
exactly once (`nodup_candidates`, `mem_candidates_iff_hopDistance`). -/
def capacityWithin (available : String → Int) (edges : List EdgeNode) (eStar : String)
    (kMax : Int) : Int :=
  ((candidates edges eStar kMax).map available).sum

/-- The greedy fill in the words of the specification: walk the candidates in
order and, while something remains, grant each node with spare capacity
`min(remaining, available)`. -/
def greedyFill (available : String → Int) : List String → Int → AllocMap
  | [], _ => []
  | n :: rest, remaining =>
    if remaining > 0 then
      if available n > 0 then
        (n, min remaining (available n)) :: greedyFill available rest (remaining - min remaining (available n))
      else greedyFill available rest remaining
    else []

/-- Two topologies declare the same nodes with the same links, up to the order
of the nodes and the order of each node's links. -/
def SameDeclarations (edges1 edges2 : List EdgeNode) : Prop :=
  ∃ es, List.Perm edges1 es ∧
    List.Forall₂ (fun a b => a.Name = b.Name ∧ List.Perm a.Links b.Links) es edges2

/-! ## Example topology -/

/-- The topology `{A: [B], B: [A, C], C: [B]}` of the specification. -/
def chainABC : List EdgeNode :=
  [ { Name := "A", Links := [⟨"B"⟩] },
    { Name := "B", Links := [⟨"A"⟩, ⟨"C"⟩] },
    { Name := "C", Links := [⟨"B"⟩] } ]

/-- The same topology declared in another order: `{C: [B], A: [B], B: [C, A]}`. -/
def chainCAB : List EdgeNode :=
  [ { Name := "C", Links := [⟨"B"⟩] },
    { Name := "A", Links := [⟨"B"⟩] },
    { Name := "B", Links := [⟨"C"⟩, ⟨"A"⟩] } ]

/-- Invariant of the depth loop after `d` iterations: `visited` holds the nodes
reachable by a walk of at most `d` links, `current` the nodes at hop distance
exactly `d`, without repetition. -/
def LevelInv (edges : List EdgeNode) (start : String) (d : Nat)
    (visited current : List String) : Prop :=
  (∀ x, x ∈ visited ↔ ∃ j, j ≤ d ∧ Walk edges start j x) ∧
  (∀ x, x ∈ current ↔ HopDistance edges start x d) ∧
  current.Nodup

/-! ## The traversal: how one scan grows `visited` and `next` -/

/-- The scan from `st` to `st1` visited exactly the targets `T`: they joined
`visited`, and those not visited before joined `next`, once each. -/
def Grows (T : String → Prop) (st st1 : Scan) : Prop :=
  (∀ x, x ∈ st1.visited ↔ x ∈ st.visited ∨ T x) ∧
  (∀ x, x ∈ st1.next ↔ x ∈ st.next ∨ (x ∉ st.visited ∧ T x)) ∧
  ((st.next.Nodup ∧ ∀ x ∈ st.next, x ∈ st.visited) →
    (st1.next.Nodup ∧ ∀ x ∈ st1.next, x ∈ st1.visited))

theorem grows_refl (st : Scan) : Grows (fun _ => False) st st := by
  refine ⟨?_, ?_, ?_⟩
  · intro x; simp
  · intro x; simp
  · intro h; exact h

theorem grows_congr {T U : String → Prop} {st st1 : Scan} (h : Grows T st st1)
    (hTU : ∀ x, T x ↔ U x) : Grows U st st1 := by
  have : T = U := funext fun x => propext (hTU x)
  rw [← this]; exact h

theorem grows_trans {T U : String → Prop} {st st1 st2 : Scan}
    (h1 : Grows T st st1) (h2 : Grows U st1 st2) : Grows (fun x => T x ∨ U x) st st2 := by
  obtain ⟨a1, b1, c1⟩ := h1
  obtain ⟨a2, b2, c2⟩ := h2
  refine ⟨?_, ?_, ?_⟩
  · intro x; rw [a2, a1]; tauto
  · intro x; rw [b2, b1, a1]; tauto
  · intro h; exact c2 (c1 h)

theorem grows_foldl {α : Type} (f : Scan → α → Scan) (T : α → String → Prop)
    (hf : ∀ st a, Grows (T a) st (f st a)) (l : List α) (st : Scan) :
    Grows (fun x => ∃ a ∈ l, T a x) st (l.foldl f st) := by
  induction l generalizing st with
  | nil => exact grows_congr (grows_refl st) (by simp)
  | cons a l ih =>
    rw [List.foldl_cons]
    exact grows_congr (grows_trans (hf st a) (ih (f st a))) (by simp)

theorem grows_visitLink (st : Scan) (link : Link) :
    Grows (fun x => link.EdgeNodeRef = x) st (visitLink st link) := by
  unfold visitLink
  by_cases h : link.EdgeNodeRef ∈ st.visited
  · rw [if_pos h]
    refine ⟨?_, ?_, ?_⟩
    · intro x
      constructor
      · intro hx; exact Or.inl hx
      · rintro (hx | hx)
        · exact hx
        · exact hx ▸ h
    · intro x
      constructor
      · intro hx; exact Or.inl hx
      · rintro (hx | ⟨hx, rfl⟩)
        · exact hx
        · exact absurd h hx
    · intro hh; exact hh
  · rw [if_neg h]
    refine ⟨?_, ?_, ?_⟩
    · intro x
      simp only [List.mem_cons]
      constructor
      · rintro (hx | hx)
        · exact Or.inr hx.symm
        · exact Or.inl hx
      · rintro (hx | hx)
        · exact Or.inr hx
        · exact Or.inl hx.symm
    · intro x
      simp only [List.mem_append, List.mem_singleton]
      constructor
      · rintro (hx | hx)
        · exact Or.inl hx
        · exact Or.inr ⟨hx ▸ h, hx.symm⟩
      · rintro (hx | ⟨_, hx⟩)
        · exact Or.inl hx
        · exact Or.inr hx.symm
    · rintro ⟨hnd, hsub⟩
      refine ⟨?_, ?_⟩
      · refine List.Nodup.append hnd (List.nodup_singleton _) ?_
        intro x hx hx1
        rw [List.mem_singleton] at hx1
        exact h (hx1 ▸ hsub x hx)
      · intro x hx
        simp only [List.mem_append, List.mem_singleton] at hx
        simp only [List.mem_cons]
        rcases hx with hx | hx
        · exact Or.inr (hsub x hx)
        · exact Or.inl hx

theorem grows_scanEdge (node : String) (st : Scan) (e : EdgeNode) :
    Grows (fun x => e.Name = node ∧ ∃ l ∈ e.Links, l.EdgeNodeRef = x) st (scanEdge node st e) := by
  unfold scanEdge
  by_cases h : e.Name = node
  · rw [if_pos h]
    exact grows_congr
      (grows_foldl visitLink (fun l x => l.EdgeNodeRef = x) grows_visitLink e.Links st)
      (by intro x; simp [h])
  · rw [if_neg h]
    exact grows_congr (grows_refl st) (by intro x; simp [h])

theorem grows_expandNode (edges : List EdgeNode) (st : Scan) (node : String) :
    Grows (Linked edges node) st (expandNode edges st node) := by
  unfold expandNode
  exact grows_congr (grows_foldl (scanEdge node)
    (fun e x => e.Name = node ∧ ∃ l ∈ e.Links, l.EdgeNodeRef = x)
    (grows_scanEdge node) edges st) (by intro x; rfl)

theorem grows_bfsStep (edges : List EdgeNode) (visited current : List String) :
    Grows (fun x => ∃ node ∈ current, Linked edges node x)
      { visited := visited, next := [] } (bfsStep edges visited current) := by
  unfold bfsStep
  exact grows_foldl (expandNode edges) (Linked edges) (grows_expandNode edges) current _

/-! ## The traversal: levels of the breadth-first search -/

theorem walk_zero_iff (edges : List EdgeNode) (start x : String) :
    Walk edges start 0 x ↔ x = start := by
  constructor
  · intro h; cases h; rfl
  · intro h; subst h; exact Walk.zero

theorem walk_succ_iff (edges : List EdgeNode) (start x : String) (n : Nat) :
    Walk edges start (n + 1) x ↔ ∃ u, Walk edges start n u ∧ Linked edges u x := by
  constructor
  · intro h
    cases h with
    | step hw hl => exact ⟨_, hw, hl⟩
  · rintro ⟨u, hw, hl⟩
    exact Walk.step hw hl

theorem levelInv_init (edges : List EdgeNode) (start : String) :
    LevelInv edges start 0 [start] [start] := by
  refine ⟨?_, ?_, List.nodup_singleton _⟩
  · intro x
    rw [List.mem_singleton]
    constructor
    · intro h; exact ⟨0, le_refl _, (walk_zero_iff _ _ _).2 h⟩
    · rintro ⟨j, hj, hw⟩
      have : j = 0 := by omega
      subst this
      exact (walk_zero_iff _ _ _).1 hw
  · intro x
    rw [List.mem_singleton]
    constructor
    · intro h
      exact ⟨(walk_zero_iff _ _ _).2 h, fun j hj => absurd hj (Nat.not_lt_zero j)⟩
    · intro h; exact (walk_zero_iff _ _ _).1 h.1

theorem levelInv_step (edges : List EdgeNode) (start : String) (d : Nat)
    (visited current : List String) (h : LevelInv edges start d visited current) :
    LevelInv edges start (d + 1) (bfsStep edges visited current).visited
      (bfsStep edges visited current).next := by
  obtain ⟨hV, hC, _⟩ := h
  obtain ⟨gV, gN, gD⟩ := grows_bfsStep edges visited current
  simp only [List.not_mem_nil, false_or] at gN
  -- membership in the new frontier
  have hNext : ∀ x, x ∈ (bfsStep edges visited current).next ↔
      HopDistance edges start x (d + 1) := by
    intro x
    rw [gN]
    constructor
    · rintro ⟨hnv, node, hnode, hl⟩
      refine ⟨Walk.step ((hC node).1 hnode).1 hl, ?_⟩
      intro j hj hw
      exact hnv ((hV x).2 ⟨j, by omega, hw⟩)
    · rintro ⟨hw, hmin⟩
      obtain ⟨u, hu, hl⟩ := (walk_succ_iff _ _ _ _).1 hw
      refine ⟨?_, u, ?_, hl⟩
      · intro hx
        obtain ⟨j, hj, hwj⟩ := (hV x).1 hx
        exact hmin j (by omega) hwj
      · refine (hC u).2 ⟨hu, ?_⟩
        intro j hj hwj
        exact hmin (j + 1) (by omega) (Walk.step hwj hl)
  refine ⟨?_, hNext, ?_⟩
  · intro x
    rw [gV]
    constructor
    · rintro (hx | ⟨node, hnode, hl⟩)
      · obtain ⟨j, hj, hw⟩ := (hV x).1 hx
        exact ⟨j, by omega, hw⟩
      · exact ⟨d + 1, le_refl _, Walk.step ((hC node).1 hnode).1 hl⟩
    · rintro ⟨j, hj, hw⟩
      by_cases hx : x ∈ visited
      · exact Or.inl hx
      · right
        have hjd : j = d + 1 := by
          by_contra hne
          exact hx ((hV x).2 ⟨j, by omega, hw⟩)
        subst hjd
        have hd : HopDistance edges start x (d + 1) := by
          refine ⟨hw, ?_⟩
          intro i hi hwi
          exact hx ((hV x).2 ⟨i, by omega, hwi⟩)
        exact ((gN x).1 ((hNext x).2 hd)).2
  · exact (gD ⟨List.nodup_nil, by simp⟩).1

theorem levelInv_loop (edges : List EdgeNode) (start : String) (n : Nat) :
    ∀ (d : Nat) (visited current : List String), LevelInv edges start d visited current →
      LevelInv edges start (d + n) (bfsLoop edges n visited current).visited
        (bfsLoop edges n visited current).next := by
  induction n with
  | zero => intro d visited current h; exact h
  | succ n ih =>
    intro d visited current h
    have h1 := ih (d + 1) _ _ (levelInv_step edges start d visited current h)
    have e : d + (n + 1) = d + 1 + n := by omega
    rw [e]
    exact h1

/-- The frontier computed for `k ≥ 0` is, without repetition, the set of nodes
at hop distance exactly `k`. -/
theorem mem_KHopNeighbors (edges : List EdgeNode) (start : String) (k : Nat) (x : String) :
    x ∈ KHopNeighbors edges start (k : Int) ↔ HopDistance edges start x k := by
  have h := levelInv_loop edges start k 0 [start] [start] (levelInv_init edges start)
  rw [Nat.zero_add] at h
  unfold KHopNeighbors
  rw [Int.toNat_ofNat]
  exact h.2.1 x

theorem nodup_KHopNeighbors (edges : List EdgeNode) (start : String) (k : Int) :
    (KHopNeighbors edges start k).Nodup := by
  have h := levelInv_loop edges start k.toNat 0 [start] [start] (levelInv_init edges start)
  exact h.2.2

theorem KHopNeighbors_of_nonpos (edges : List EdgeNode) (start : String) (k : Int)
    (hk : k ≤ 0) : KHopNeighbors edges start k = [start] := by
  unfold KHopNeighbors
  have : k.toNat = 0 := by omega
  rw [this]
  rfl

theorem hopDistance_unique (edges : List EdgeNode) (start x : String) (j k : Nat)
    (hj : HopDistance edges start x j) (hk : HopDistance edges start x k) : j = k := by
  rcases Nat.lt_trichotomy j k with h | h | h
  · exact absurd hj.1 (hk.2 j h)
  · exact h
  · exact absurd hk.1 (hj.2 k h)

theorem bfsLoop_nil (edges : List EdgeNode) (n : Nat) (visited : List String) :
    (bfsLoop edges n visited []).next = [] := by
  induction n generalizing visited with
  | zero => rfl
  | succ n ih => exact ih _

theorem bfsLoop_add (edges : List EdgeNode) (a b : Nat) (visited current : List String) :
    bfsLoop edges (a + b) visited current =
      bfsLoop edges b (bfsLoop edges a visited current).visited
        (bfsLoop edges a visited current).next := by
  induction a generalizing visited current with
  | zero => rw [Nat.zero_add]; rfl
  | succ a ih =>
    have e : a + 1 + b = (a + b) + 1 := by omega
    rw [e]
    exact ih _ _

theorem KHopNeighbors_nil_of_le (edges : List EdgeNode) (start : String) (k k1 : Int)
    (h : KHopNeighbors edges start k = []) (hk : k ≤ k1) :
    KHopNeighbors edges start k1 = [] := by
  unfold KHopNeighbors at h ⊢
  have e : k1.toNat = k.toNat + (k1.toNat - k.toNat) := by omega
  rw [e, bfsLoop_add, h]
  exact bfsLoop_nil _ _ _

theorem KHopNeighbors_one_nil (edges : List EdgeNode) (start : String)
    (h : ∀ e ∈ edges, e.Name = start → e.Links = []) :
    KHopNeighbors edges start 1 = [] := by
  rw [List.eq_nil_iff_forall_not_mem]
  intro x hx
  have hx1 : x ∈ KHopNeighbors edges start ((1 : Nat) : Int) := hx
  rw [mem_KHopNeighbors] at hx1
  obtain ⟨u, hu, e, he, hname, l, hl, _⟩ := (walk_succ_iff _ _ _ _).1 hx1.1
  rw [(walk_zero_iff _ _ _).1 hu] at hname
  rw [h e he hname] at hl
  exact absurd hl (List.not_mem_nil l)

/-! ## Properties of `KHopNeighbors` -/

/-- C4 (hop-exactness): the frontier at hop 0 is exactly `[start]`; for every
`k ≥ 1` the frontier has no duplicates and shares no node with the frontier of
any smaller `j` (so it never contains `start`). -/
theorem hop_exactness (edges : List EdgeNode) (start : String) :
    KHopNeighbors edges start 0 = [start] ∧
    ∀ k : Int, 1 ≤ k →
      (KHopNeighbors edges start k).Nodup ∧
      ∀ j : Int, j < k → ∀ x ∈ KHopNeighbors edges start k, x ∉ KHopNeighbors edges start j := by
  refine ⟨KHopNeighbors_of_nonpos edges start 0 (le_refl _), ?_⟩
  intro k hk
  refine ⟨nodup_KHopNeighbors edges start k, ?_⟩
  intro j hj x hxk hxj
  obtain ⟨n, rfl⟩ := Int.eq_ofNat_of_zero_le (by omega : (0 : Int) ≤ k)
  rw [mem_KHopNeighbors] at hxk
  by_cases hj0 : j ≤ 0
  · rw [KHopNeighbors_of_nonpos edges start j hj0, List.mem_singleton] at hxj
    subst hxj
    exact hxk.2 0 (by omega) Walk.zero
  · obtain ⟨m, rfl⟩ := Int.eq_ofNat_of_zero_le (by omega : (0 : Int) ≤ j)
    rw [mem_KHopNeighbors] at hxj
    have := hopDistance_unique edges start x m n hxj hxk
    omega

/-- Hop-exactness on the chain `A - B - C` from `A`: hop 0 is `[A]`, hop 2 is `[C]`,
which is absent from hop 1. -/
theorem hop_exactness_witness :
    KHopNeighbors chainABC "A" 0 = ["A"] ∧
    (KHopNeighbors chainABC "A" 2).Nodup ∧
    "C" ∈ KHopNeighbors chainABC "A" 2 ∧ "C" ∉ KHopNeighbors chainABC "A" 1 :=
  ⟨(hop_exactness chainABC "A").1,
   ((hop_exactness chainABC "A").2 2 (by decide)).1,
   by decide,
   ((hop_exactness chainABC "A").2 2 (by decide)).2 1 (by decide) "C" (by decide)⟩

/-- C5 (exact-distance characterisation): for `k ≥ 0`, a node is in
`KHopNeighbors edges start k` if and only if the shortest path from `start` to
it along the declared outgoing links has exactly `k` links. -/
theorem exact_distance (edges : List EdgeNode) (start : String) (k : Int) (hk : 0 ≤ k)
    (n : String) :
    n ∈ KHopNeighbors edges start k ↔ HopDistance edges start n k.toNat := by
  obtain ⟨m, rfl⟩ := Int.eq_ofNat_of_zero_le hk
  rw [mem_KHopNeighbors, Int.toNat_ofNat]

/-- Exact distance on the chain `A - B - C`: `C` is in the frontier of hop 2 from
`A` and its hop distance from `A` is 2. -/
theorem exact_distance_witness :
    (0 : Int) ≤ 2 ∧ "C" ∈ KHopNeighbors chainABC "A" 2 ∧
      HopDistance chainABC "A" "C" (2 : Int).toNat :=
  ⟨by decide, by decide, (exact_distance chainABC "A" 2 (by decide) "C").1 (by decide)⟩

/-- C9 (topology exhaustion is stable): once a frontier is empty, the frontier
of every larger `k` is empty; and a start node none of whose declarations has a
link (in particular an undeclared start node) has an empty frontier at every
`k ≥ 1`.  `KHopNeighbors` is a total function: the call always returns. -/
theorem exhaustion_stable (edges : List EdgeNode) (start : String) :
    (∀ k k1 : Int, KHopNeighbors edges start k = [] → k ≤ k1 →
      KHopNeighbors edges start k1 = []) ∧
    ((∀ e ∈ edges, e.Name = start → e.Links = []) →
      ∀ k : Int, 1 ≤ k → KHopNeighbors edges start k = []) :=
  ⟨fun k k1 h hk => KHopNeighbors_nil_of_le edges start k k1 h hk,
   fun h k hk => KHopNeighbors_nil_of_le edges start 1 k (KHopNeighbors_one_nil edges start h) hk⟩

/-- Exhaustion on the chain `A - B - C`: the frontier of `A` is empty at hop 3 and
hence at hop 7, and the undeclared node `Z` has an empty frontier at hop 4. -/
theorem exhaustion_stable_witness :
    KHopNeighbors chainABC "A" 3 = [] ∧ KHopNeighbors chainABC "A" 7 = [] ∧
    KHopNeighbors chainABC "Z" 4 = [] :=
  ⟨by decide,
   (exhaustion_stable chainABC "A").1 3 7 (by decide) (by decide),
   (exhaustion_stable chainABC "Z").2 (by decide) 4 (by decide)⟩

/-! ## The allocation loop: maps and the greedy fill -/

theorem goMin_eq_min (a b : Int) : goMin a b = min a b := by
  unfold goMin
  split <;> omega

theorem mapAdd_of_not_mem (m : AllocMap) (key : String) (delta : Int)
    (h : key ∉ m.map Prod.fst) : mapAdd m key delta = m ++ [(key, delta)] := by
  induction m with
  | nil => simp [mapAdd]
  | cons p m ih =>
    obtain ⟨k, v⟩ := p
    simp only [List.map_cons, List.mem_cons, not_or] at h
    have hk : ¬ k = key := fun e => h.1 e.symm
    simp only [mapAdd, if_neg hk, ih h.2, List.cons_append]

theorem sumValues_nil : sumValues [] = 0 := rfl

theorem sumValues_cons (p : String × Int) (m : AllocMap) :
    sumValues (p :: m) = p.2 + sumValues m := by
  simp [sumValues]

theorem sumValues_append (m1 m2 : AllocMap) :
    sumValues (m1 ++ m2) = sumValues m1 + sumValues m2 := by
  simp [sumValues]

theorem greedyFill_nonpos (available : String → Int) (l : List String) (r : Int)
    (h : r ≤ 0) : greedyFill available l r = [] := by
  cases l with
  | nil => rfl
  | cons n rest =>
    have : ¬ r > 0 := by omega
    simp only [greedyFill, if_neg this]

theorem greedyFill_cons_grant (available : String → Int) (n : String) (rest : List String)
    (r : Int) (hr : r > 0) (ha : available n > 0) :
    greedyFill available (n :: rest) r =
      (n, min r (available n)) :: greedyFill available rest (r - min r (available n)) := by
  simp only [greedyFill, if_pos hr, if_pos ha]

theorem greedyFill_cons_skip (available : String → Int) (n : String) (rest : List String)
    (r : Int) (h : ¬ (r > 0 ∧ available n > 0)) :
    greedyFill available (n :: rest) r = greedyFill available rest r := by
  by_cases hr : r > 0
  · have ha : ¬ available n > 0 := fun ha => h ⟨hr, ha⟩
    simp only [greedyFill, if_pos hr, if_neg ha]
  · rw [greedyFill_nonpos available (n :: rest) r (by omega),
      greedyFill_nonpos available rest r (by omega)]

theorem greedyFill_keys_sublist (available : String → Int) (l : List String) (r : Int) :
    List.Sublist ((greedyFill available l r).map Prod.fst) l := by
  induction l generalizing r with
  | nil => simp [greedyFill]
  | cons n rest ih =>
    by_cases h : r > 0 ∧ available n > 0
    · rw [greedyFill_cons_grant available n rest r h.1 h.2, List.map_cons]
      exact (ih _).cons₂ n
    · rw [greedyFill_cons_skip available n rest r h]
      exact (ih r).cons n

theorem sumValues_greedyFill_nonneg (available : String → Int) (l : List String) (r : Int) :
    0 ≤ sumValues (greedyFill available l r) := by
  induction l generalizing r with
  | nil => simp [greedyFill, sumValues]
  | cons n rest ih =>
    by_cases h : r > 0 ∧ available n > 0
    · rw [greedyFill_cons_grant available n rest r h.1 h.2, sumValues_cons]
      have := ih (r - min r (available n))
      simp only
      omega
    · rw [greedyFill_cons_skip available n rest r h]
      exact ih r

theorem greedyFill_append (available : String → Int) (l1 l2 : List String) (r : Int) :
    greedyFill available (l1 ++ l2) r =
      greedyFill available l1 r ++
        greedyFill available l2 (r - sumValues (greedyFill available l1 r)) := by
  induction l1 generalizing r with
  | nil => simp [greedyFill, sumValues]
  | cons n rest ih =>
    by_cases h : r > 0 ∧ available n > 0
    · rw [List.cons_append, greedyFill_cons_grant available n _ r h.1 h.2,
        greedyFill_cons_grant available n rest r h.1 h.2, ih, sumValues_cons, List.cons_append]
      simp only [Int.sub_sub]
    · rw [List.cons_append, greedyFill_cons_skip available n _ r h,
        greedyFill_cons_skip available n rest r h, ih]

/-- Closed form of the total granted by the greedy fill when the capacities
are non-negative. -/
theorem sumValues_greedyFill (available : String → Int) (l : List String) (r : Int)
    (hr : 0 ≤ r) (ha : ∀ x ∈ l, 0 ≤ available x) :
    sumValues (greedyFill available l r) = min r ((l.map available).sum) := by
  induction l generalizing r with
  | nil => simp [greedyFill, sumValues, hr]
  | cons n rest ih =>
    have han : 0 ≤ available n := ha n (List.mem_cons_self _ _)
    have hrest : ∀ x ∈ rest, 0 ≤ available x := fun x hx => ha x (List.mem_cons_of_mem _ hx)
    have hsum : 0 ≤ (rest.map available).sum :=
      List.sum_nonneg (by intro y hy; obtain ⟨x, hx, rfl⟩ := List.mem_map.1 hy; exact hrest x hx)
    rw [List.map_cons, List.sum_cons]
    by_cases h : r > 0 ∧ available n > 0
    · rw [greedyFill_cons_grant available n rest r h.1 h.2, sumValues_cons,
        ih (r - min r (available n)) (by omega) hrest]
      simp only
      omega
    · rw [greedyFill_cons_skip available n rest r h, ih r hr hrest]
      omega

/-! ## The allocation loop: sorting and the candidate order -/

theorem perm_sortStrings (l : List String) : List.Perm (sortStrings l) l :=
  List.perm_insertionSort _ l

theorem mem_sortStrings (l : List String) (x : String) : x ∈ sortStrings l ↔ x ∈ l :=
  (perm_sortStrings l).mem_iff

theorem nodup_sortStrings (l : List String) (h : l.Nodup) : (sortStrings l).Nodup :=
  (perm_sortStrings l).nodup_iff.2 h

theorem sorted_sortStrings (l : List String) :
    List.Sorted (fun a b : String => a ≤ b) (sortStrings l) :=
  List.sorted_insertionSort _ l

theorem sortStrings_eq_of_perm (l1 l2 : List String) (h : List.Perm l1 l2) :
    sortStrings l1 = sortStrings l2 :=
  List.eq_of_perm_of_sorted
    (((perm_sortStrings l1).trans h).trans (perm_sortStrings l2).symm)
    (sorted_sortStrings l1) (sorted_sortStrings l2)

theorem mem_candidatesFrom (edges : List EdgeNode) (eStar : String) (n : Nat) (k : Int)
    (x : String) :
    x ∈ candidatesFrom edges eStar n k ↔
      ∃ j : Int, k ≤ j ∧ j < k + n ∧ x ∈ KHopNeighbors edges eStar j := by
  induction n generalizing k with
  | zero =>
    simp only [candidatesFrom, List.not_mem_nil, false_iff]
    rintro ⟨j, h1, h2, _⟩
    omega
  | succ n ih =>
    simp only [candidatesFrom, List.mem_append, mem_sortStrings, ih]
    constructor
    · rintro (h | ⟨j, h1, h2, h3⟩)
      · exact ⟨k, le_refl _, by omega, h⟩
      · exact ⟨j, by omega, by omega, h3⟩
    · rintro ⟨j, h1, h2, h3⟩
      by_cases hj : j = k
      · subst hj; exact Or.inl h3
      · exact Or.inr ⟨j, by omega, by omega, h3⟩

theorem KHopNeighbors_disjoint (edges : List EdgeNode) (start : String) (j k : Int)
    (hj : 0 ≤ j) (hjk : j < k) (x : String) (hk : x ∈ KHopNeighbors edges start k) :
    x ∉ KHopNeighbors edges start j := by
  intro hxj
  obtain ⟨n, rfl⟩ := Int.eq_ofNat_of_zero_le (by omega : (0 : Int) ≤ k)
  obtain ⟨m, rfl⟩ := Int.eq_ofNat_of_zero_le hj
  rw [mem_KHopNeighbors] at hk hxj
  have := hopDistance_unique edges start x m n hxj hk
  omega

theorem nodup_candidatesFrom (edges : List EdgeNode) (eStar : String) (n : Nat) (k : Int)
    (hk : 0 ≤ k) : (candidatesFrom edges eStar n k).Nodup := by
  induction n generalizing k with
  | zero => exact List.nodup_nil
  | succ n ih =>
    simp only [candidatesFrom]
    refine List.Nodup.append (nodup_sortStrings _ (nodup_KHopNeighbors edges eStar k))
      (ih (k + 1) (by omega)) ?_
    intro x hx hx2
    rw [mem_sortStrings] at hx
    obtain ⟨j, h1, _, h3⟩ := (mem_candidatesFrom edges eStar n (k + 1) x).1 hx2
    exact KHopNeighbors_disjoint edges eStar k j hk (by omega) x h3 hx

theorem nodup_candidates (edges : List EdgeNode) (eStar : String) (kMax : Int) :
    (candidates edges eStar kMax).Nodup :=
  nodup_candidatesFrom edges eStar _ 0 (le_refl _)

theorem mem_candidates (edges : List EdgeNode) (eStar : String) (kMax : Int) (x : String) :
    x ∈ candidates edges eStar kMax ↔
      ∃ j : Int, 0 ≤ j ∧ j ≤ kMax ∧ x ∈ KHopNeighbors edges eStar j := by
  unfold candidates
  rw [mem_candidatesFrom]
  constructor
  · rintro ⟨j, h1, h2, h3⟩
    exact ⟨j, h1, by omega, h3⟩
  · rintro ⟨j, h1, h2, h3⟩
    exact ⟨j, h1, by omega, h3⟩

theorem mem_candidates_iff_hopDistance (edges : List EdgeNode) (eStar : String) (kMax : Int)
    (x : String) :
    x ∈ candidates edges eStar kMax ↔
      ∃ d : Nat, (d : Int) ≤ kMax ∧ HopDistance edges eStar x d := by
  rw [mem_candidates]
  constructor
  · rintro ⟨j, h1, h2, h3⟩
    obtain ⟨d, rfl⟩ := Int.eq_ofNat_of_zero_le h1
    exact ⟨d, h2, (mem_KHopNeighbors edges eStar d x).1 h3⟩
  · rintro ⟨d, h1, h2⟩
    exact ⟨d, by omega, h1, (mem_KHopNeighbors edges eStar d x).2 h2⟩

theorem candidatesFrom_add (edges : List EdgeNode) (eStar : String) (a b : Nat) (k : Int) :
    candidatesFrom edges eStar (a + b) k =
      candidatesFrom edges eStar a k ++ candidatesFrom edges eStar b (k + a) := by
  induction a generalizing k with
  | zero => simp [candidatesFrom]
  | succ a ih =>
    have e : a + 1 + b = (a + b) + 1 := by omega
    rw [e]
    simp only [candidatesFrom, ih, List.append_assoc]
    have e2 : k + 1 + (a : Int) = k + ((a + 1 : Nat) : Int) := by push_cast; omega
    rw [e2]

/-! ## The allocation loop: the loop computes the greedy fill -/

/-- The inner loop over a duplicate-free slice whose nodes have no entry yet
appends the greedy grants to the map, subtracts them from `remaining` and
records one capacity update per grant. -/
theorem foldl_allocNode (available : String → Int) (l : List String) (st : AllocState)
    (hnd : l.Nodup) (hdis : ∀ x ∈ l, x ∉ st.result.map Prod.fst) :
    l.foldl (allocNode available) st =
      { result := st.result ++ greedyFill available l st.remaining
        remaining := st.remaining - sumValues (greedyFill available l st.remaining)
        updates := st.updates ++
          (greedyFill available l st.remaining).map (fun p => (p.1, available p.1 - p.2)) } := by
  induction l generalizing st with
  | nil => simp [greedyFill, sumValues]
  | cons e l ih =>
    rw [List.foldl_cons]
    have hnd2 := (List.nodup_cons.1 hnd)
    by_cases h : st.remaining > 0 ∧ available e > 0
    · have hstep : allocNode available st e =
          { result := st.result ++ [(e, min st.remaining (available e))]
            remaining := st.remaining - min st.remaining (available e)
            updates := st.updates ++
              [(e, available e - min st.remaining (available e))] } := by
        simp only [allocNode, if_pos h, goMin_eq_min]
        rw [mapAdd_of_not_mem _ _ _ (hdis e (List.mem_cons_self _ _))]
      rw [hstep, ih _ hnd2.2, greedyFill_cons_grant available e l _ h.1 h.2]
      · simp only [sumValues_cons, List.append_assoc, List.singleton_append, List.map_cons,
          Int.sub_sub]
      · intro x hx
        simp only [List.map_append, List.map_cons, List.map_nil, List.mem_append,
          List.mem_singleton, not_or]
        refine ⟨hdis x (List.mem_cons_of_mem _ hx), ?_⟩
        intro hxe
        exact hnd2.1 (hxe ▸ hx)
    · have hstep : allocNode available st e = st := by
        simp only [allocNode, if_neg h]
      rw [hstep, ih st hnd2.2 (fun x hx => hdis x (List.mem_cons_of_mem _ hx)),
        greedyFill_cons_skip available e l _ h]

/-- The hop loop over duplicate-free candidates none of which has an entry yet
computes the greedy fill of the candidates. -/
theorem hopLoop_eq (available : String → Int) (edges : List EdgeNode) (eStar : String)
    (n : Nat) (k : Int) (st : AllocState)
    (hnd : (candidatesFrom edges eStar n k).Nodup)
    (hdis : ∀ x ∈ candidatesFrom edges eStar n k, x ∉ st.result.map Prod.fst) :
    hopLoop available edges eStar n k st =
      { result := st.result ++ greedyFill available (candidatesFrom edges eStar n k) st.remaining
        remaining := st.remaining -
          sumValues (greedyFill available (candidatesFrom edges eStar n k) st.remaining)
        updates := st.updates ++
          (greedyFill available (candidatesFrom edges eStar n k) st.remaining).map
            (fun p => (p.1, available p.1 - p.2)) } := by
  induction n generalizing k st with
  | zero => simp [hopLoop, candidatesFrom, greedyFill, sumValues]
  | succ n ih =>
    simp only [candidatesFrom] at hnd hdis ⊢
    obtain ⟨hnd1, hnd2, hdj⟩ := List.nodup_append.1 hnd
    have hfold := foldl_allocNode available (sortStrings (KHopNeighbors edges eStar k)) st hnd1
      (fun x hx => hdis x (List.mem_append_left _ hx))
    simp only [hopLoop]
    rw [hfold, greedyFill_append]
    by_cases hz : st.remaining -
        sumValues (greedyFill available (sortStrings (KHopNeighbors edges eStar k))
          st.remaining) = 0
    · rw [if_pos hz, hz, greedyFill_nonpos available _ 0 (le_refl _)]
      simp only [List.append_nil, List.append_assoc, AllocState.mk.injEq, true_and, and_true]
      omega
    · rw [if_neg hz, ih (k + 1) _ hnd2]
      · simp only [sumValues_append, List.append_assoc, List.map_append, Int.sub_sub]
      · intro x hx
        simp only [List.map_append, List.mem_append, not_or]
        refine ⟨hdis x (List.mem_append_right _ hx), ?_⟩
        intro hxk
        exact hdj ((greedyFill_keys_sublist available _ _).subset hxk) hx

/-- The state after the allocation loop, in closed form. -/
theorem allocationLoop_eq (available : String → Int) (edges : List EdgeNode) (eStar : String)
    (blocks kMax : Int) :
    allocationLoop available edges eStar blocks kMax =
      { result := greedyFill available (candidates edges eStar kMax) blocks
        remaining := blocks - sumValues (greedyFill available (candidates edges eStar kMax) blocks)
        updates := (greedyFill available (candidates edges eStar kMax) blocks).map
          (fun p => (p.1, available p.1 - p.2)) } := by
  unfold allocationLoop
  rw [hopLoop_eq available edges eStar _ 0 _ (nodup_candidates edges eStar kMax)
    (by intro x _; simp)]
  simp [candidates]

theorem DistributedVolumeAllocation_eq (edges : List EdgeNode) (bytes : Int) (eStar : String)
    (kMax : Int) :
    DistributedVolumeAllocation (some edges) (some bytes) eStar kMax =
      some (greedyFill GetAvailableDisk (candidates edges eStar kMax) (bytesToBlocks bytes)) := by
  simp only [DistributedVolumeAllocation, allocationLoop_eq]

theorem DistributedVolumeAllocation_eq_none_iff (topology : Option (List EdgeNode))
    (volumeSize : Option Int) (eStar : String) (kMax : Int) :
    DistributedVolumeAllocation topology volumeSize eStar kMax = none ↔
      topology = none ∨ volumeSize = none := by
  cases topology <;> cases volumeSize <;> simp [DistributedVolumeAllocation]

theorem GetAvailableDisk_nonneg (n : String) : 0 ≤ GetAvailableDisk n := by
  unfold GetAvailableDisk
  decide

/-! ## The hop counter and its 64-bit range -/

theorem hopLoopFuel_succ (available : String → Int) (edges : List EdgeNode) (eStar : String)
    (kMax : Int) (fuel : Nat) (k : Int) (st : AllocState) :
    hopLoopFuel available edges eStar kMax (fuel + 1) k st =
      if k ≤ kMax then
        if ((sortStrings (KHopNeighbors edges eStar k)).foldl (allocNode available) st).remaining
            = 0 then
          some ((sortStrings (KHopNeighbors edges eStar k)).foldl (allocNode available) st)
        else hopLoopFuel available edges eStar kMax fuel (incInt64 k)
          ((sortStrings (KHopNeighbors edges eStar k)).foldl (allocNode available) st)
      else some st := rfl

/-- Below the wrap-around the loop with the wrapping counter leaves by its
condition or by `break`, and returns what `hopLoop` computes. -/
theorem hopLoopFuel_eq_hopLoop (available : String → Int) (edges : List EdgeNode)
    (eStar : String) (kMax : Int) (hk : kMax < 2 ^ 63 - 1) (n : Nat) :
    ∀ (k : Int) (st : AllocState) (fuel : Nat), n = (kMax + 1 - k).toNat → n < fuel →
      hopLoopFuel available edges eStar kMax fuel k st =
        some (hopLoop available edges eStar n k st) := by
  induction n with
  | zero =>
    intro k st fuel hn hf
    obtain ⟨f, rfl⟩ : ∃ f, fuel = f + 1 := ⟨fuel - 1, by omega⟩
    have hgt : ¬ k ≤ kMax := by omega
    simp only [hopLoopFuel, if_neg hgt, hopLoop]
  | succ n ih =>
    intro k st fuel hn hf
    obtain ⟨f, rfl⟩ : ∃ f, fuel = f + 1 := ⟨fuel - 1, by omega⟩
    have hle : k ≤ kMax := by omega
    have hinc : incInt64 k = k + 1 := by
      unfold incInt64
      rw [if_neg (by omega)]
    simp only [hopLoopFuel, if_pos hle, hopLoop, hinc]
    split
    · rfl
    · exact ih (k + 1) _ f (by omega) (by omega)

/-- For `kMax < 2^63 - 1` the allocation loop of the code returns, after at
most `kMax + 1` iterations, the state `allocationLoop` computes. -/
theorem allocationLoop_returns (available : String → Int) (edges : List EdgeNode)
    (eStar : String) (blocks kMax : Int) (hk : kMax < 2 ^ 63 - 1) (fuel : Nat)
    (hf : (kMax + 1).toNat < fuel) :
    hopLoopFuel available edges eStar kMax fuel 0
        { result := [], remaining := blocks, updates := [] } =
      some (allocationLoop available edges eStar blocks kMax) :=
  hopLoopFuel_eq_hopLoop available edges eStar kMax hk (kMax + 1).toNat 0 _ fuel
    (by omega) hf

theorem foldl_allocNode_of_nonpos (available : String → Int) (l : List String)
    (st : AllocState) (h : st.remaining ≤ 0) : l.foldl (allocNode available) st = st := by
  induction l with
  | nil => rfl
  | cons e l ih =>
    have hstep : allocNode available st e = st := by
      have : ¬ (st.remaining > 0 ∧ available e > 0) := fun hh => by omega
      simp only [allocNode, if_neg this]
    rw [List.foldl_cons, hstep, ih]

/-- At `kMax = 2^63 - 1` the loop condition never fails: with a negative
`remaining` the loop is never left, whatever the fuel. -/
theorem hopLoopFuel_never_returns (available : String → Int) (edges : List EdgeNode)
    (eStar : String) (st : AllocState) (h : st.remaining < 0) (fuel : Nat) :
    ∀ k : Int, k ≤ 2 ^ 63 - 1 →
      hopLoopFuel available edges eStar (2 ^ 63 - 1) fuel k st = none := by
  induction fuel with
  | zero => intro k _; rfl
  | succ f ih =>
    intro k hk
    have hne : ¬ st.remaining = 0 := by omega
    simp only [hopLoopFuel, if_pos hk, foldl_allocNode_of_nonpos available _ st (by omega),
      if_neg hne]
    apply ih
    unfold incInt64
    split <;> omega

/-- Hops with an empty frontier leave the state as it is. -/
theorem hopLoopFuel_skip (available : String → Int) (edges : List EdgeNode) (eStar : String)
    (kMax : Int) (st : AllocState) (hrem : st.remaining ≠ 0) (n : Nat) :
    ∀ k : Int, (∀ j : Int, k ≤ j → KHopNeighbors edges eStar j = []) →
      k + n ≤ kMax + 1 → k + n ≤ 2 ^ 63 - 1 → ∀ fuel : Nat,
      hopLoopFuel available edges eStar kMax (fuel + n) k st =
        hopLoopFuel available edges eStar kMax fuel (k + n) st := by
  induction n with
  | zero => intro k _ _ _ fuel; simp
  | succ n ih =>
    intro k hemp h1 h2 fuel
    have hle : k ≤ kMax := by omega
    have hinc : incInt64 k = k + 1 := by
      unfold incInt64
      rw [if_neg (by omega)]
    have hfuel : fuel + (n + 1) = (fuel + n) + 1 := by omega
    have hs : sortStrings ([] : List String) = [] := rfl
    rw [hfuel]
    simp only [hopLoopFuel, if_pos hle, hemp k (le_refl _), hs, List.foldl_nil, if_neg hrem, hinc]
    rw [ih (k + 1) (fun j hj => hemp j (by omega)) (by push_cast at h1 ⊢; omega)
      (by push_cast at h2 ⊢; omega) fuel]
    congr 1
    push_cast
    omega

theorem hopLoopFuel_regrants_of (n : Nat) (hn : (1 : Int) + (n : Int) = 2 ^ 63 - 1) :
    hopLoopFuel GetAvailableDisk [] "A" (2 ^ 63 - 1) ((2 + n) + 1) 0
        { result := [], remaining := 20000, updates := [] } =
      some { result := [("A", 20000)], remaining := 0, updates := [("A", 0), ("A", 480)] } := by
  have hemp : ∀ j : Int, 1 ≤ j → KHopNeighbors [] "A" j = [] := fun j hj =>
    KHopNeighbors_nil_of_le [] "A" 1 j (KHopNeighbors_one_nil [] "A" (by simp)) hj
  have h0 : sortStrings (KHopNeighbors [] "A" 0) = ["A"] := by decide
  have hf0 : List.foldl (allocNode GetAvailableDisk)
      { result := [], remaining := 20000, updates := [] } ["A"] =
      { result := [("A", 10240)], remaining := 9760, updates := [("A", 0)] } := by decide
  have hi0 : incInt64 0 = 1 := by decide
  have hw : incInt64 (2 ^ 63 - 1) = -(2 ^ 63) := by decide
  have hs : sortStrings ([] : List String) = [] := rfl
  have hneg : sortStrings (KHopNeighbors [] "A" (-(2 ^ 63))) = ["A"] := by
    rw [KHopNeighbors_of_nonpos [] "A" _ (by norm_num)]
    rfl
  have hf1 : List.foldl (allocNode GetAvailableDisk)
      { result := [("A", 10240)], remaining := 9760, updates := [("A", 0)] } ["A"] =
      { result := [("A", 20000)], remaining := 0, updates := [("A", 0), ("A", 480)] } := by decide
  rw [hopLoopFuel_succ, h0, hf0, hi0, if_pos (by norm_num), if_neg (by decide),
    hopLoopFuel_skip GetAvailableDisk [] "A" (2 ^ 63 - 1) _ (by decide) n 1 hemp
      (by omega) (by omega) 2,
    hn, hopLoopFuel_succ, hemp (2 ^ 63 - 1) (by norm_num), hs, List.foldl_nil,
    if_pos (le_refl _), if_neg (by decide), hw, hopLoopFuel_succ, hneg, hf1,
    if_pos (by norm_num), if_pos rfl]

/-- At `kMax = 2^63 - 1` an unmet request outlives the wrap of the counter:
with no declared node, anchor `A` and 20000 blocks the loop grants `A` 10240
at hop 0, finds the hops `1, ..., 2^63 - 1` empty, wraps to `k = -2^63`, where
`KHopNeighbors` is `[A]` again, and grants `A` the other 9760. -/
theorem hopLoopFuel_regrants :
    hopLoopFuel GetAvailableDisk [] "A" (2 ^ 63 - 1) (2 ^ 63 + 1) 0
        { result := [], remaining := 20000, updates := [] } =
      some { result := [("A", 20000)], remaining := 0, updates := [("A", 0), ("A", 480)] } := by
  have e : (2 ^ 63 + 1 : Nat) = (2 + (2 ^ 63 - 2)) + 1 := by norm_num
  rw [e]
  exact hopLoopFuel_regrants_of (2 ^ 63 - 2) (by norm_num)

/-! ## Properties of the allocation loop -/

/-- C1 (conservation), amended to a non-negative request and a radius below
the wrap-around: for `kMax < 2^63 - 1`, a requested size of at least zero
blocks and a capacity source that reports no negative value (such as
`GetAvailableDisk`), the allocation loop returns, the values of the map it
returns sum to at most the requested size, and the sum equals the requested
size exactly when the capacity reported on the nodes within `kMax` hops of the
anchor is at least the requested size. -/
theorem conservation (available : String → Int) (edges : List EdgeNode) (eStar : String)
    (blocks kMax : Int) (hk : kMax < 2 ^ 63 - 1) (hb : 0 ≤ blocks)
    (ha : ∀ n, 0 ≤ available n) :
    (∀ fuel : Nat, (kMax + 1).toNat < fuel →
      hopLoopFuel available edges eStar kMax fuel 0
          { result := [], remaining := blocks, updates := [] } =
        some (allocationLoop available edges eStar blocks kMax)) ∧
    sumValues (allocationLoop available edges eStar blocks kMax).result ≤ blocks ∧
    (sumValues (allocationLoop available edges eStar blocks kMax).result = blocks ↔
      blocks ≤ capacityWithin available edges eStar kMax) := by
  refine ⟨allocationLoop_returns available edges eStar blocks kMax hk, ?_⟩
  rw [allocationLoop_eq]
  simp only
  rw [sumValues_greedyFill available _ blocks hb (fun x _ => ha x)]
  unfold capacityWithin
  constructor
  · omega
  · constructor <;> intro h <;> omega

/-- Conservation for a request of 20000 blocks at `A` with radius 2 and the
capacities `GetAvailableDisk` reports. -/
theorem conservation_witness :
    (2 : Int) < 2 ^ 63 - 1 ∧ (0 : Int) ≤ 20000 ∧ (∀ n, 0 ≤ GetAvailableDisk n) ∧
    sumValues (allocationLoop GetAvailableDisk chainABC "A" 20000 2).result ≤ 20000 ∧
    (sumValues (allocationLoop GetAvailableDisk chainABC "A" 20000 2).result = 20000 ↔
      20000 ≤ capacityWithin GetAvailableDisk chainABC "A" 2) :=
  ⟨by decide, by decide, GetAvailableDisk_nonneg,
   (conservation GetAvailableDisk chainABC "A" 20000 2 (by decide) (by decide)
     GetAvailableDisk_nonneg).2⟩

/-- C1, as stated, fails for a negative size: a request of `-3Mi` is `-3`
blocks, the loop grants nothing, and the sum `0` of the returned (empty) map is
not at most `-3`. -/
theorem conservation_fails_for_negative_size :
    bytesToBlocks (-3 * 1024 * 1024) = -3 ∧
    DistributedVolumeAllocation (some chainABC) (some (-3 * 1024 * 1024)) "A" 2 = some [] ∧
    ¬ (sumValues (allocationLoop GetAvailableDisk chainABC "A" (-3) 2).result ≤ -3) := by
  decide

/-- C6 (radius monotonicity): for the same topology, anchor, size and capacity
source, a larger radius never lowers the total of the returned values. -/
theorem radius_monotone (available : String → Int) (edges : List EdgeNode) (eStar : String)
    (blocks kMax kMax2 : Int) (h : kMax ≤ kMax2) :
    sumValues (allocationLoop available edges eStar blocks kMax).result ≤
      sumValues (allocationLoop available edges eStar blocks kMax2).result := by
  rw [allocationLoop_eq, allocationLoop_eq]
  simp only
  have e : (kMax2 + 1).toNat = (kMax + 1).toNat + ((kMax2 + 1).toNat - (kMax + 1).toNat) := by
    omega
  have hc : candidates edges eStar kMax2 =
      candidates edges eStar kMax ++
        candidatesFrom edges eStar ((kMax2 + 1).toNat - (kMax + 1).toNat)
          (0 + ((kMax + 1).toNat : Int)) := by
    unfold candidates
    rw [e, candidatesFrom_add]
    congr 2
    omega
  rw [hc, greedyFill_append, sumValues_append]
  have := sumValues_greedyFill_nonneg available
    (candidatesFrom edges eStar ((kMax2 + 1).toNat - (kMax + 1).toNat)
      (0 + ((kMax + 1).toNat : Int)))
    (blocks - sumValues (greedyFill available (candidates edges eStar kMax) blocks))
  omega

/-- Radius monotonicity for a request of 30000 blocks at `A`: radius 0 grants
10240 in total and radius 2 at least as much. -/
theorem radius_monotone_witness :
    (0 : Int) ≤ 2 ∧
    sumValues (allocationLoop GetAvailableDisk chainABC "A" 30000 0).result = 10240 ∧
    sumValues (allocationLoop GetAvailableDisk chainABC "A" 30000 0).result ≤
      sumValues (allocationLoop GetAvailableDisk chainABC "A" 30000 2).result :=
  ⟨by decide, by decide, radius_monotone GetAvailableDisk chainABC "A" 30000 0 2 (by decide)⟩

/-! ## Requests the specification wants rejected -/

theorem bytesToBlocks_nonpos_iff (bytes : Int) :
    bytesToBlocks bytes ≤ 0 ↔ bytes < 1024 * 1024 := by
  unfold bytesToBlocks
  by_cases h : 0 ≤ bytes
  · rw [Int.tdiv_eq_ediv h (by decide)]
    omega
  · have e : bytes = -(-bytes) := by omega
    rw [e, Int.neg_tdiv, Int.tdiv_eq_ediv (by omega) (by decide)]
    omega

theorem candidatesFrom_nil (edges : List EdgeNode) (eStar : String) (n : Nat) (k : Int)
    (h : ∀ j : Int, k ≤ j → KHopNeighbors edges eStar j = []) :
    candidatesFrom edges eStar n k = [] := by
  induction n generalizing k with
  | zero => rfl
  | succ n ih =>
    simp only [candidatesFrom, h k (le_refl _), ih (k + 1) (fun j hj => h j (by omega))]
    rfl

theorem candidates_of_undeclared (edges : List EdgeNode) (eStar : String) (kMax : Int)
    (h : ∀ e ∈ edges, e.Name ≠ eStar) :
    candidates edges eStar kMax = if 0 ≤ kMax then [eStar] else [] := by
  unfold candidates
  by_cases hk : 0 ≤ kMax
  · rw [if_pos hk]
    obtain ⟨m, hm⟩ : ∃ m, (kMax + 1).toNat = m + 1 := ⟨kMax.toNat, by omega⟩
    rw [hm]
    simp only [candidatesFrom]
    rw [KHopNeighbors_of_nonpos edges eStar 0 (le_refl _), candidatesFrom_nil]
    · rfl
    · intro j hj
      exact KHopNeighbors_nil_of_le edges eStar 1 j
        (KHopNeighbors_one_nil edges eStar (fun e he hn => absurd hn (h e he))) (by omega)
  · rw [if_neg hk]
    have : (kMax + 1).toNat = 0 := by omega
    rw [this]
    rfl

/-- C7 (unknown anchor), amended to what the code does: when no declared node
has the anchor name (the topology fetched, the size parsed) and
`kMax < 2^63 - 1`, the allocation loop returns and
`DistributedVolumeAllocation` reports no failure; it returns an ordinary map
that grants the anchor name `min(blocks, 10240)` when the size is positive and
`kMax ≥ 0`, and the empty map otherwise; no other node is granted anything. -/
theorem unknown_anchor_is_served (edges : List EdgeNode) (bytes : Int) (eStar : String)
    (kMax : Int) (hk : kMax < 2 ^ 63 - 1) (h : ∀ e ∈ edges, e.Name ≠ eStar) :
    (∀ fuel : Nat, (kMax + 1).toNat < fuel →
      hopLoopFuel GetAvailableDisk edges eStar kMax fuel 0
          { result := [], remaining := bytesToBlocks bytes, updates := [] } =
        some (allocationLoop GetAvailableDisk edges eStar (bytesToBlocks bytes) kMax)) ∧
    DistributedVolumeAllocation (some edges) (some bytes) eStar kMax =
      some (if 0 < bytesToBlocks bytes ∧ 0 ≤ kMax
        then [(eStar, min (bytesToBlocks bytes) 10240)] else []) := by
  refine ⟨allocationLoop_returns GetAvailableDisk edges eStar (bytesToBlocks bytes) kMax hk, ?_⟩
  rw [DistributedVolumeAllocation_eq, candidates_of_undeclared edges eStar kMax h]
  by_cases hk0 : 0 ≤ kMax
  · by_cases hb : 0 < bytesToBlocks bytes
    · rw [if_pos hk0, if_pos ⟨hb, hk0⟩,
        greedyFill_cons_grant GetAvailableDisk eStar [] _ hb (by unfold GetAvailableDisk; decide)]
      rfl
    · rw [if_pos hk0, if_neg (fun hh => hb hh.1), greedyFill_nonpos _ _ _ (by omega)]
  · rw [if_neg hk0, if_neg (fun hh => hk0 hh.2)]
    rfl

/-- The undeclared anchor `Z` on the chain `A - B - C` with a request of `8Mi`. -/
theorem unknown_anchor_is_served_witness :
    (3 : Int) < 2 ^ 63 - 1 ∧ (∀ e ∈ chainABC, e.Name ≠ "Z") ∧
    hopLoopFuel GetAvailableDisk chainABC "Z" 3 5 0
        { result := [], remaining := bytesToBlocks (8 * 1024 * 1024), updates := [] } =
      some (allocationLoop GetAvailableDisk chainABC "Z" (bytesToBlocks (8 * 1024 * 1024)) 3) ∧
    DistributedVolumeAllocation (some chainABC) (some (8 * 1024 * 1024)) "Z" 3 =
      some (if 0 < bytesToBlocks (8 * 1024 * 1024) ∧ (0 : Int) ≤ 3
        then [("Z", min (bytesToBlocks (8 * 1024 * 1024)) 10240)] else []) :=
  ⟨by decide, by decide,
   (unknown_anchor_is_served chainABC (8 * 1024 * 1024) "Z" 3 (by decide) (by decide)).1 5
     (by decide),
   (unknown_anchor_is_served chainABC (8 * 1024 * 1024) "Z" 3 (by decide) (by decide)).2⟩

/-- C7, as stated, fails: with the topology `{A:[B], B:[A,C], C:[B]}`, which
declares no node `Z`, a request of `8Mi` anchored at `Z` with `kMax` 3 is not
rejected; the call returns the map `{Z:8}`, granting capacity to the unknown
anchor. -/
theorem unknown_anchor_not_rejected :
    (∀ e ∈ chainABC, e.Name ≠ "Z") ∧
    DistributedVolumeAllocation (some chainABC) (some (8 * 1024 * 1024)) "Z" 3 =
      some [("Z", 8)] ∧
    DistributedVolumeAllocation (some chainABC) (some (8 * 1024 * 1024)) "Z" 3 ≠ none := by
  decide

/-- C8 (non-positive size), amended to what the code does: for
`kMax < 2^63 - 1`, a size of zero or fewer blocks, which is exactly a byte
size below 1 MiB, is not reported as a failure; with the topology fetched and
the size parsed, the allocation loop returns and
`DistributedVolumeAllocation` returns the ordinary empty allocation map. -/
theorem nonpositive_size_yields_empty_map (edges : List EdgeNode) (bytes : Int)
    (eStar : String) (kMax : Int) (hk : kMax < 2 ^ 63 - 1) (h : bytesToBlocks bytes ≤ 0) :
    bytes < 1024 * 1024 ∧
    (∀ fuel : Nat, (kMax + 1).toNat < fuel →
      hopLoopFuel GetAvailableDisk edges eStar kMax fuel 0
          { result := [], remaining := bytesToBlocks bytes, updates := [] } =
        some (allocationLoop GetAvailableDisk edges eStar (bytesToBlocks bytes) kMax)) ∧
    DistributedVolumeAllocation (some edges) (some bytes) eStar kMax = some [] := by
  refine ⟨(bytesToBlocks_nonpos_iff bytes).1 h,
    allocationLoop_returns GetAvailableDisk edges eStar (bytesToBlocks bytes) kMax hk, ?_⟩
  rw [DistributedVolumeAllocation_eq, greedyFill_nonpos _ _ _ h]

/-- A request of one byte less than 1 MiB is 0 blocks and returns the empty map. -/
theorem nonpositive_size_yields_empty_map_witness :
    (3 : Int) < 2 ^ 63 - 1 ∧ bytesToBlocks 1048575 ≤ 0 ∧ (1048575 : Int) < 1024 * 1024 ∧
    DistributedVolumeAllocation (some chainABC) (some 1048575) "A" 3 = some [] :=
  ⟨by decide, by decide,
   (nonpositive_size_yields_empty_map chainABC 1048575 "A" 3 (by decide) (by decide)).1,
   (nonpositive_size_yields_empty_map chainABC 1048575 "A" 3 (by decide) (by decide)).2.2⟩

/-- C8, as stated, fails: requests of `0`, of `-3Mi` and of one byte less than
1 MiB are zero or negative in blocks, and each returns the empty map, the same
kind of value a valid request returns, not the failure value. -/
theorem nonpositive_size_not_rejected :
    bytesToBlocks 0 = 0 ∧
    DistributedVolumeAllocation (some chainABC) (some 0) "A" 3 = some [] ∧
    bytesToBlocks (-3 * 1024 * 1024) = -3 ∧
    DistributedVolumeAllocation (some chainABC) (some (-3 * 1024 * 1024)) "A" 3 = some [] ∧
    bytesToBlocks 1048575 = 0 ∧
    DistributedVolumeAllocation (some chainABC) (some 1048575) "A" 3 = some [] ∧
    DistributedVolumeAllocation (some chainABC) (some 0) "A" 3 ≠ none := by
  decide

/-! ## Independence of the declaration order -/

theorem linked_cons (a : EdgeNode) (es : List EdgeNode) (u v : String) :
    Linked (a :: es) u v ↔
      (a.Name = u ∧ ∃ l ∈ a.Links, l.EdgeNodeRef = v) ∨ Linked es u v := by
  unfold Linked
  simp only [List.mem_cons, exists_eq_or_imp]

theorem linked_of_perm (es1 es2 : List EdgeNode) (h : List.Perm es1 es2) (u v : String) :
    Linked es1 u v ↔ Linked es2 u v := by
  unfold Linked
  constructor
  · rintro ⟨e, he, hr⟩; exact ⟨e, h.mem_iff.1 he, hr⟩
  · rintro ⟨e, he, hr⟩; exact ⟨e, h.mem_iff.2 he, hr⟩

theorem linked_of_forall₂ (es1 es2 : List EdgeNode)
    (h : List.Forall₂ (fun a b => a.Name = b.Name ∧ List.Perm a.Links b.Links) es1 es2)
    (u v : String) : Linked es1 u v ↔ Linked es2 u v := by
  induction h with
  | nil => exact Iff.rfl
  | cons hab _ ih =>
    rw [linked_cons, linked_cons, ih, hab.1]
    constructor
    · rintro (⟨hn, l, hl, hr⟩ | hr)
      · exact Or.inl ⟨hn, l, hab.2.mem_iff.1 hl, hr⟩
      · exact Or.inr hr
    · rintro (⟨hn, l, hl, hr⟩ | hr)
      · exact Or.inl ⟨hn, l, hab.2.mem_iff.2 hl, hr⟩
      · exact Or.inr hr

theorem linked_of_sameDeclarations (edges1 edges2 : List EdgeNode)
    (h : SameDeclarations edges1 edges2) (u v : String) :
    Linked edges1 u v ↔ Linked edges2 u v := by
  obtain ⟨es, hp, hf⟩ := h
  rw [linked_of_perm edges1 es hp, linked_of_forall₂ es edges2 hf]

theorem walk_of_linked_imp (edges1 edges2 : List EdgeNode)
    (h : ∀ u v, Linked edges1 u v → Linked edges2 u v) (start : String) (n : Nat) (x : String)
    (hw : Walk edges1 start n x) : Walk edges2 start n x := by
  induction hw with
  | zero => exact Walk.zero
  | step _ hl ih => exact Walk.step ih (h _ _ hl)

theorem hopDistance_of_linked_iff (edges1 edges2 : List EdgeNode)
    (h : ∀ u v, Linked edges1 u v ↔ Linked edges2 u v) (start x : String) (n : Nat) :
    HopDistance edges1 start x n ↔ HopDistance edges2 start x n := by
  have h12 := walk_of_linked_imp edges1 edges2 (fun u v => (h u v).1) start
  have h21 := walk_of_linked_imp edges2 edges1 (fun u v => (h u v).2) start
  unfold HopDistance
  constructor
  · rintro ⟨hw, hmin⟩
    exact ⟨h12 n x hw, fun j hj hwj => hmin j hj (h21 j x hwj)⟩
  · rintro ⟨hw, hmin⟩
    exact ⟨h21 n x hw, fun j hj hwj => hmin j hj (h12 j x hwj)⟩

/-- Topologies declaring the same directed graph have the same sorted frontiers. -/
theorem sorted_frontier_of_linked_iff (edges1 edges2 : List EdgeNode)
    (h : ∀ u v, Linked edges1 u v ↔ Linked edges2 u v) (start : String) (k : Int) :
    sortStrings (KHopNeighbors edges1 start k) = sortStrings (KHopNeighbors edges2 start k) := by
  by_cases hk : k ≤ 0
  · rw [KHopNeighbors_of_nonpos edges1 start k hk, KHopNeighbors_of_nonpos edges2 start k hk]
  · obtain ⟨n, rfl⟩ := Int.eq_ofNat_of_zero_le (by omega : (0 : Int) ≤ k)
    apply sortStrings_eq_of_perm
    rw [List.perm_ext_iff_of_nodup (nodup_KHopNeighbors edges1 start _)
      (nodup_KHopNeighbors edges2 start _)]
    intro x
    rw [mem_KHopNeighbors, mem_KHopNeighbors]
    exact hopDistance_of_linked_iff edges1 edges2 h start x n

theorem hopLoop_congr (available : String → Int) (edges1 edges2 : List EdgeNode)
    (eStar : String)
    (h : ∀ k : Int, sortStrings (KHopNeighbors edges1 eStar k) =
      sortStrings (KHopNeighbors edges2 eStar k))
    (n : Nat) (k : Int) (st : AllocState) :
    hopLoop available edges1 eStar n k st = hopLoop available edges2 eStar n k st := by
  induction n generalizing k st with
  | zero => rfl
  | succ n ih => simp only [hopLoop, h k, ih]

/-- C10 (declaration-order independence): when two topologies declare the same
nodes with the same links, up to the order of the nodes and the order of each
node's links, then for every start node the sorted output of `KHopNeighbors`
is the same at every `k`, the allocation loop ends in the same state for every
capacity source, size and radius, and `DistributedVolumeAllocation` returns
the same map. -/
theorem declaration_order_independent (edges1 edges2 : List EdgeNode)
    (h : SameDeclarations edges1 edges2) (eStar : String) :
    (∀ k : Int, sortStrings (KHopNeighbors edges1 eStar k) =
      sortStrings (KHopNeighbors edges2 eStar k)) ∧
    (∀ (available : String → Int) (blocks kMax : Int),
      allocationLoop available edges1 eStar blocks kMax =
        allocationLoop available edges2 eStar blocks kMax) ∧
    (∀ (volumeSize : Option Int) (kMax : Int),
      DistributedVolumeAllocation (some edges1) volumeSize eStar kMax =
        DistributedVolumeAllocation (some edges2) volumeSize eStar kMax) := by
  have hs := sorted_frontier_of_linked_iff edges1 edges2
    (linked_of_sameDeclarations edges1 edges2 h) eStar
  have hl : ∀ (available : String → Int) (blocks kMax : Int),
      allocationLoop available edges1 eStar blocks kMax =
        allocationLoop available edges2 eStar blocks kMax := by
    intro available blocks kMax
    unfold allocationLoop
    exact hopLoop_congr available edges1 edges2 eStar hs _ _ _
  refine ⟨hs, hl, ?_⟩
  intro volumeSize kMax
  cases volumeSize with
  | none => rfl
  | some bytes => simp only [DistributedVolumeAllocation, hl]

/-- The topologies `chainABC` and `chainCAB` declare the same nodes and links. -/
theorem sameDeclarations_chain : SameDeclarations chainABC chainCAB :=
  ⟨[ { Name := "C", Links := [⟨"B"⟩] },
     { Name := "A", Links := [⟨"B"⟩] },
     { Name := "B", Links := [⟨"A"⟩, ⟨"C"⟩] } ],
   by decide,
   List.Forall₂.cons ⟨rfl, by decide⟩
     (List.Forall₂.cons ⟨rfl, by decide⟩
       (List.Forall₂.cons ⟨rfl, by decide⟩ List.Forall₂.nil))⟩

/-- Declaration-order independence on the chain declared in two orders: the
frontiers of `B` at hop 1 differ as slices, the returned maps agree. -/
theorem declaration_order_independent_witness :
    SameDeclarations chainABC chainCAB ∧
    KHopNeighbors chainABC "B" 1 = ["A", "C"] ∧
    KHopNeighbors chainCAB "B" 1 = ["C", "A"] ∧
    DistributedVolumeAllocation (some chainABC) (some (25000 * 1024 * 1024)) "B" 2 =
      DistributedVolumeAllocation (some chainCAB) (some (25000 * 1024 * 1024)) "B" 2 :=
  ⟨sameDeclarations_chain, by decide, by decide,
   (declaration_order_independent chainABC chainCAB sameDeclarations_chain "B").2.2
     (some (25000 * 1024 * 1024)) 2⟩

/-! ## The relational properties at the wrap-around

Radius monotonicity and declaration-order independence are stated above on
`allocationLoop`.  The lemmas below show that they also hold of the loop with
the wrapping counter at `kMax = 2^63 - 1`, wherever that loop returns. -/

theorem sumValues_mapAdd (m : AllocMap) (key : String) (delta : Int) :
    sumValues (mapAdd m key delta) = sumValues m + delta := by
  induction m with
  | nil => simp [mapAdd, sumValues]
  | cons p m ih =>
    obtain ⟨k, v⟩ := p
    by_cases hk : k = key
    · simp only [mapAdd, if_pos hk, sumValues_cons]
      omega
    · simp only [mapAdd, if_neg hk, sumValues_cons, ih]
      omega

theorem allocNode_total (available : String → Int) (st : AllocState) (e : String) :
    sumValues (allocNode available st e).result + (allocNode available st e).remaining =
      sumValues st.result + st.remaining := by
  by_cases h : st.remaining > 0 ∧ available e > 0
  · simp only [allocNode, if_pos h, sumValues_mapAdd]
    omega
  · simp only [allocNode, if_neg h]

theorem foldl_allocNode_total (available : String → Int) (l : List String) (st : AllocState) :
    sumValues (l.foldl (allocNode available) st).result +
        (l.foldl (allocNode available) st).remaining =
      sumValues st.result + st.remaining := by
  induction l generalizing st with
  | nil => rfl
  | cons e l ih => rw [List.foldl_cons, ih, allocNode_total]

/-- Whatever the radius, a state the wrapping loop returns has granted exactly
what it took from `remaining`. -/
theorem hopLoopFuel_total (available : String → Int) (edges : List EdgeNode) (eStar : String)
    (kMax : Int) (fuel : Nat) :
    ∀ (k : Int) (st st1 : AllocState),
      hopLoopFuel available edges eStar kMax fuel k st = some st1 →
      sumValues st1.result + st1.remaining = sumValues st.result + st.remaining := by
  induction fuel with
  | zero => intro k st st1 h; simp [hopLoopFuel] at h
  | succ f ih =>
    intro k st st1 h
    rw [hopLoopFuel_succ] at h
    split at h
    · split at h
      · rw [← Option.some.inj h]
        exact foldl_allocNode_total available _ st
      · rw [ih _ _ _ h]
        exact foldl_allocNode_total available _ st
    · rw [← Option.some.inj h]

/-- At `kMax = 2^63 - 1` the wrapping loop is left by `break` only. -/
theorem hopLoopFuel_remaining_at_wrap (available : String → Int) (edges : List EdgeNode)
    (eStar : String) (fuel : Nat) :
    ∀ (k : Int) (st st1 : AllocState), k ≤ 2 ^ 63 - 1 →
      hopLoopFuel available edges eStar (2 ^ 63 - 1) fuel k st = some st1 →
      st1.remaining = 0 := by
  induction fuel with
  | zero => intro k st st1 _ h; simp [hopLoopFuel] at h
  | succ f ih =>
    intro k st st1 hk h
    rw [hopLoopFuel_succ, if_pos hk] at h
    split at h
    · rename_i hz
      rw [← Option.some.inj h]
      exact hz
    · refine ih _ _ _ ?_ h
      unfold incInt64
      split <;> omega

theorem sumValues_greedyFill_le (available : String → Int) (l : List String) (r : Int)
    (hr : 0 ≤ r) : sumValues (greedyFill available l r) ≤ r := by
  induction l generalizing r with
  | nil => simpa [greedyFill, sumValues] using hr
  | cons n rest ih =>
    by_cases h : r > 0 ∧ available n > 0
    · rw [greedyFill_cons_grant available n rest r h.1 h.2, sumValues_cons]
      have := ih (r - min r (available n)) (by omega)
      simp only
      omega
    · rw [greedyFill_cons_skip available n rest r h]
      exact ih r hr

/-- Radius monotonicity at the wrap-around: when the loop with radius
`2^63 - 1` returns, its total is at least the total of any smaller radius. -/
theorem radius_monotone_at_wrap (available : String → Int) (edges : List EdgeNode)
    (eStar : String) (blocks kMax : Int) (fuel : Nat) (st2 : AllocState)
    (h : hopLoopFuel available edges eStar (2 ^ 63 - 1) fuel 0
      { result := [], remaining := blocks, updates := [] } = some st2) :
    sumValues (allocationLoop available edges eStar blocks kMax).result ≤
      sumValues st2.result := by
  have htot := hopLoopFuel_total available edges eStar _ fuel 0 _ st2 h
  have hrem := hopLoopFuel_remaining_at_wrap available edges eStar fuel 0 _ st2 (by norm_num) h
  simp only [sumValues_nil] at htot
  by_cases hb : 0 ≤ blocks
  · rw [allocationLoop_eq]
    have := sumValues_greedyFill_le available (candidates edges eStar kMax) blocks hb
    simp only
    omega
  · have hnone := hopLoopFuel_never_returns available edges eStar
      { result := [], remaining := blocks, updates := [] } (by simp only; omega) fuel 0
      (by norm_num)
    rw [hnone] at h
    exact absurd h (by simp)

/-- Declaration-order independence for the loop with the wrapping counter, at
every radius and every fuel. -/
theorem hopLoopFuel_congr (available : String → Int) (edges1 edges2 : List EdgeNode)
    (eStar : String) (h : SameDeclarations edges1 edges2) (kMax : Int) (fuel : Nat) :
    ∀ (k : Int) (st : AllocState),
      hopLoopFuel available edges1 eStar kMax fuel k st =
        hopLoopFuel available edges2 eStar kMax fuel k st := by
  have hs := sorted_frontier_of_linked_iff edges1 edges2
    (linked_of_sameDeclarations edges1 edges2 h) eStar
  induction fuel with
  | zero => intro k st; rfl
  | succ f ih =>
    intro k st
    rw [hopLoopFuel_succ, hopLoopFuel_succ, hs k]
    split
    · split
      · rfl
      · exact ih _ _
    · rfl

end VolumeAllocation
